import Mathlib

/-!
# Verification of the discord-pollinations-family routing/generation pipeline

Shallow embedding of the message routing and response-generation core of the
repository (`src-functional/bot-loop.ts`, `src-functional/api.ts`,
`src-functional/errors.ts`).  Message text is modelled as `List Char`;
JavaScript regular-expression operations used by the code are translated into
explicit scanning functions with the same leftmost / greedy-with-backtracking
semantics on the character sets actually used.
-/

namespace PollinationsFamily

/-! ## Character classes and basic string operations (JS semantics) -/

/-- JS `\s` whitespace class restricted to the code points the program handles
(ASCII whitespace plus NBSP). -/
def jsWs (c : Char) : Bool :=
  c = ' ' || c = '\t' || c = '\n' || c = '\r' ||
  c = (Char.ofNat 11) || c = (Char.ofNat 12) || c = (Char.ofNat 160)

/-- JS `String.prototype.trim`: drop leading and trailing whitespace. -/
def jsTrim (s : List Char) : List Char :=
  ((s.dropWhile jsWs).reverse.dropWhile jsWs).reverse

/-- JS `String.prototype.toLowerCase` on the ASCII range used here. -/
def lowerStr (s : List Char) : List Char :=
  s.map Char.toLower

/-- Case-insensitive character comparison (`i` regex flag). -/
def charEqCI (a b : Char) : Bool :=
  a.toLower = b.toLower

/-- Strip a case-insensitive literal from the front of a string; return the
remainder on success. -/
def stripCI : List Char → List Char → Option (List Char)
  | [], s => some s
  | _ :: _, [] => none
  | p :: ps, c :: cs => if charEqCI p c then stripCI ps cs else none

/-! ## `cleanResponse` (bot-loop.ts lines 37-53)

`response.replace(/<think>.*?<\/think>/gs, '')` followed by stripping one
leading `[name]:\n` prefix (exact model name first, generic label second).
-/

def thinkOpen : List Char := '<' :: 't' :: 'h' :: 'i' :: 'n' :: 'k' :: '>' :: []

def thinkClose : List Char := '<' :: '/' :: 't' :: 'h' :: 'i' :: 'n' :: 'k' :: '>' :: []

/-- Split a string at the first occurrence of `pat`: return the part before
the occurrence and the part after it. -/
def splitFirst (pat : List Char) : List Char → Option (List Char × List Char)
  | [] => if pat.isEmpty then some ([], []) else none
  | c :: cs =>
    if pat.isPrefixOf (c :: cs) then some ([], (c :: cs).drop pat.length)
    else match splitFirst pat cs with
      | some (b, a) => some (c :: b, a)
      | none => none

/-- One global pass of `replace(/<think>.*?<\/think>/gs, '')`: repeatedly find
the leftmost `<think>`, then the first `</think>` after it, drop the span and
continue scanning after it; if an opener has no closer the rest of the string
is left untouched (regex `lastIndex` semantics).  Fuel-based recursion; the
fuel `s.length` always suffices since each step consumes a nonempty span. -/
def removeThinkFuel : Nat → List Char → List Char
  | 0, s => s
  | n + 1, s =>
    match splitFirst thinkOpen s with
    | none => s
    | some (b, r) =>
      match splitFirst thinkClose r with
      | none => s
      | some (_, a) => b ++ removeThinkFuel n a

def removeThink (s : List Char) : List Char :=
  removeThinkFuel s.length s

/-- Does the string contain a `<think>…</think>` span (i.e. would the regex
match at all)? -/
def hasThinkSpan (s : List Char) : Bool :=
  match splitFirst thinkOpen s with
  | none => false
  | some (_, r) => (splitFirst thinkClose r).isSome

/-- Character class `[a-zA-Z0-9_\- ]` of the generic label pattern. -/
def isLabelChar (c : Char) : Bool :=
  (('a' ≤ c && c ≤ 'z') || ('A' ≤ c && c ≤ 'Z') || ('0' ≤ c && c ≤ '9') ||
   c = '_' || c = '-' || c = ' ')

/-- Tail of both prefix regexes, `:\s*\n` part after the `:` has been
consumed: greedy `\s*` backtracks so the match ends at the last `'\n'` of the
whitespace run following the colon; fails when that run has no newline.
Returns the remainder of the string after the matched prefix. -/
def afterColon (rest : List Char) : Option (List Char) :=
  let run := rest.takeWhile jsWs
  let tail := rest.drop run.length
  let k := (run.reverse.takeWhile (fun c => c ≠ '\n')).length
  if k = run.length then none
  else some ((run.reverse.take k).reverse ++ tail)

/-- Matcher for `^\s*\[\s*MODEL\s*\]\s*:\s*\n` with the `i` flag
(`exactModelNamePattern`); returns the remainder after the matched prefix. -/
def matchExactLabel (model : List Char) (s : List Char) : Option (List Char) :=
  match s.dropWhile jsWs with
  | '[' :: s2 =>
    match stripCI model (s2.dropWhile jsWs) with
    | none => none
    | some s4 =>
      match s4.dropWhile jsWs with
      | ']' :: s6 =>
        match s6.dropWhile jsWs with
        | ':' :: s8 => afterColon s8
        | _ => none
      | _ => none
  | _ => none

/-- Can `inner` (the text between `[` and the first `]`) be decomposed as
`\s*[a-zA-Z0-9_\- ]+\s*`?  Exactly the regex's existential semantics. -/
def innerLabelOk (inner : List Char) : Bool :=
  (List.range (inner.length + 1)).any (fun i =>
    (List.range (inner.length + 1)).any (fun j =>
      decide (i ≤ j) &&
      (inner.take i).all jsWs &&
      !((inner.take j).drop i).isEmpty &&
      ((inner.take j).drop i).all isLabelChar &&
      (inner.drop j).all jsWs))

/-- Matcher for the fallback `^\s*\[\s*[a-zA-Z0-9_\- ]+\s*\]\s*:\s*\n`
(`generalPattern`); returns the remainder after the matched prefix.  Neither
the class nor `\s` contains `]`, so the bracket closing the label is the first
`]` after `[`. -/
def matchGeneralLabel (s : List Char) : Option (List Char) :=
  match s.dropWhile jsWs with
  | '[' :: s2 =>
    let inner := s2.takeWhile (fun c => c ≠ ']')
    match s2.drop inner.length with
    | ']' :: s6 =>
      if innerLabelOk inner then
        match s6.dropWhile jsWs with
        | ':' :: s8 => afterColon s8
        | _ => none
      else none
    | _ => none
  | _ => none

/-- `cleanResponse(response, modelName)` (bot-loop.ts lines 37-53): remove
`<think>` spans, then strip one leading `[label]:\n` prefix — the exact model
name variant is tried first, the generic variant only when it fails. -/
def cleanResponse (response : List Char) (modelName : List Char) : List Char :=
  let cleaned := removeThink response
  match matchExactLabel modelName cleaned with
  | some rest => rest
  | none =>
    match matchGeneralLabel cleaned with
    | some rest => rest
    | none => cleaned

/-- What actually leaves the process for a generated text: `cleanResponse`
applied inside `generateResponseWithHistory` followed by the
`response.slice(0, 1500)` truncation at every send site (bot-loop.ts lines
108, 351, 442). -/
def outboundReply (response : List Char) (modelName : List Char) : List Char :=
  (cleanResponse response modelName).take 1500

/-! ## Association lists (JS `Map` with string keys) -/

def lookupA {α : Type} : List (String × α) → String → Option α
  | [], _ => none
  | (k, v) :: r, m => if k = m then some v else lookupA r m

def setA {α : Type} : List (String × α) → String → α → List (String × α)
  | [], m, s => [(m, s)]
  | (k, v) :: r, m, s => if k = m then (m, s) :: r else (k, v) :: setA r m s

def eraseA {α : Type} : List (String × α) → String → List (String × α)
  | [], _ => []
  | (k, v) :: r, m => if k = m then r else (k, v) :: eraseA r m

/-! ## Generation client error classification (api.ts lines 245-318,
errors.ts lines 15-20) -/

/-- `NetworkTimeoutError` (errors.ts lines 15-20): distinguished error class
carrying the timeout that was exceeded. -/
structure NetworkTimeoutError where
  timeout : Nat
deriving DecidableEq, Repr

/-- `API_TIMEOUT_MS = 50000` (api.ts line 194, the authoritative variant). -/
def API_TIMEOUT_MS : Nat := 50000

/-- Outcome of the raced `axios.post` / timeout promise, as observed by the
`catch` block: success with a content string, the synthetic timeout rejection,
an HTTP error response (with status and body), or a transport failure in
which no response arrived. -/
inductive NetOutcome where
  | ok (content : List Char)
  | timedOut
  | httpError (status : Nat) (body : List Char)
  | transportError
deriving DecidableEq, Repr

/-- Externally visible actions taken by one `generateText` invocation. -/
inductive ApiEffect where
  | acquire (model : String)
  | post (model : String)
  | release (model : String)
  | logStatusBody (status : Nat) (body : List Char)
  | logNoResponse
  | wait (ms : Nat)
deriving DecidableEq, Repr

/-- One invocation of the function returned by `createGenerateTextWithHistory`
(api.ts lines 245-318), abstracted over the network outcome: the ordered
effect trace and the final result (`.error` models the `throw` of
`NetworkTimeoutError`, `.ok` the returned string).  In the source the
semaphore is released first in the `catch` block (line 291), before the
timeout check, the 60-second cool-down and the classification. -/
def generateText (model : String) (outcome : NetOutcome) :
    List ApiEffect × Except NetworkTimeoutError (List Char) :=
  match outcome with
  | .ok content =>
    ([.acquire model, .post model, .release model], .ok content)
  | .timedOut =>
    ([.acquire model, .post model, .release model, .wait 60000],
     .error ⟨API_TIMEOUT_MS⟩)
  | .httpError status body =>
    ([.acquire model, .post model, .release model,
      .logStatusBody status body, .wait 60000], .ok [])
  | .transportError =>
    ([.acquire model, .post model, .release model,
      .logNoResponse, .wait 60000], .ok [])

/-! ## Per-model semaphore (api.ts lines 202-240)

The `modelSemaphores` map together with `acquireSemaphore`/`releaseSemaphore`
is modelled as a labelled transition system over the interleavings the
JavaScript event loop can produce.  A `start` event is an `acquireSemaphore`
call that finds the model free and immediately puts its network request in
flight; an `enqueue` event is an `acquireSemaphore` call that finds the model
busy and pushes its resume callback; a `finish` event is a request completing
and running `releaseSemaphore`, which shifts the queue and resumes its head
(the resumed waiter's request is then in flight). -/

structure Sem where
  inProgress : Bool
  queue : List Nat
deriving DecidableEq, Repr

structure ApiState where
  sems : List (String × Sem)
  inFlight : List (Nat × String)
deriving DecidableEq, Repr

inductive SemEv where
  | start (c : Nat) (m : String)
  | enqueue (c : Nat) (m : String)
  | finish (c : Nat) (m : String)
deriving DecidableEq, Repr

def SemEv.model : SemEv → String
  | .start _ m => m
  | .enqueue _ m => m
  | .finish _ m => m

/-- `getModelSemaphore` (api.ts lines 206-211): create the per-model entry on
first use, never destroy it. -/
def ensureSem (sems : List (String × Sem)) (m : String) : List (String × Sem) :=
  match lookupA sems m with
  | some _ => sems
  | none => sems ++ [(m, ⟨false, []⟩)]

def semOf (sems : List (String × Sem)) (m : String) : Sem :=
  (lookupA sems m).getD ⟨false, []⟩

/-- Remove one in-flight record. -/
def removeFlight : List (Nat × String) → Nat → String → List (Nat × String)
  | [], _, _ => []
  | (c', m') :: r, c, m =>
    if c' = c ∧ m' = m then r else (c', m') :: removeFlight r c m

/-- One scheduler step.  `none` means the event is not enabled in this state
(its precondition on the branch taken by the source does not hold).  The
second component reports the waiter resumed by a `finish`, if any. -/
def stepSem (st : ApiState) : SemEv → Option (ApiState × Option (Nat × String))
  | .start c m =>
    let sems := ensureSem st.sems m
    let sem := semOf sems m
    if sem.inProgress then none
    else some (⟨setA sems m ⟨true, sem.queue⟩, (c, m) :: st.inFlight⟩, none)
  | .enqueue c m =>
    let sems := ensureSem st.sems m
    let sem := semOf sems m
    if sem.inProgress then
      some (⟨setA sems m ⟨true, sem.queue ++ [c]⟩, st.inFlight⟩, none)
    else none
  | .finish c m =>
    if (c, m) ∈ st.inFlight then
      let sems := ensureSem st.sems m
      let sem := semOf sems m
      let fl := removeFlight st.inFlight c m
      match sem.queue with
      | h :: t => some (⟨setA sems m ⟨true, t⟩, (h, m) :: fl⟩, some (h, m))
      | [] => some (⟨setA sems m ⟨false, []⟩, fl⟩, none)
    else none

/-- Run a sequence of events, accumulating the log of resumed waiters. -/
def runSem (st : ApiState) (log : List (Nat × String)) :
    List SemEv → Option (ApiState × List (Nat × String))
  | [] => some (st, log)
  | ev :: evs =>
    match stepSem st ev with
    | none => none
    | some (st', r) => runSem st' (log ++ r.toList) evs

/-- Initial state: no semaphores exist yet, nothing in flight. -/
def initApi : ApiState := ⟨[], []⟩

/-- Number of network requests in flight for a given model. -/
def countFlight (st : ApiState) (m : String) : Nat :=
  st.inFlight.countP (fun p => decide (p.2 = m))

/-- Callers enqueued for model `m` over a trace, in order. -/
def enqsOf (evs : List SemEv) (m : String) : List Nat :=
  evs.filterMap (fun ev =>
    match ev with
    | .enqueue c m' => if m' = m then some c else none
    | _ => none)

/-- Callers resumed for model `m`, in order, as recorded in the log. -/
def resumesOf (log : List (Nat × String)) (m : String) : List Nat :=
  log.filterMap (fun p => if p.2 = m then some p.1 else none)

/-- Mutual-exclusion invariant of the semaphore system: at most one request
in flight per model, and a free semaphore has no in-flight request and an
empty waiter queue. -/
def InvSem (st : ApiState) : Prop :=
  ∀ m, countFlight st m ≤ 1 ∧
    ((semOf st.sems m).inProgress = false →
      countFlight st m = 0 ∧ (semOf st.sems m).queue = [])

/-! ## Retry/recovery scheduler (bot-loop.ts lines 12-22 and 59-130)

`channelRetryState : Map<string, RetryState>` with
`RetryState = { count, timer? }`.  The `setTimeout` closure captures
`nextCount`, so the pending-timer value is stored alongside the entry. -/

/-- `RetryState` (bot-loop.ts lines 13-16); `timer` carries the `nextCount`
captured by the scheduled callback. -/
structure RSt where
  count : Nat
  timer : Option Nat
deriving DecidableEq, Repr

/-- `retryKey(channelId, botName)` (bot-loop.ts lines 20-22). -/
def retryKey (channelId : String) (botName : String) : String :=
  channelId ++ "-" ++ botName

/-- `scheduleRetryResponse` state effect (bot-loop.ts lines 59-85, 129):
look up the key (default `{count: 0}`); if `count >= 3` give up (cap); if a
timer is pending do nothing; otherwise store `{count: count+1, timer}`.  The
boolean reports whether a timer was created. -/
def scheduleRetry (m : List (String × RSt)) (k : String) :
    List (String × RSt) × Bool :=
  let st := (lookupA m k).getD ⟨0, none⟩
  if st.count ≥ 3 then (m, false)
  else if st.timer.isSome then (m, false)
  else (setA m k ⟨st.count + 1, some (st.count + 1)⟩, true)

/-- Events acting on the retry-state map: a `scheduleRetryResponse` call, the
pending timer firing with a successful send (lines 87-111), firing with an
empty regenerated response (lines 112-116), firing with a non-fatal error
(lines 117-126), and the successful-send cleanup in `processMessage`
(lines 443-447). -/
inductive RetryEv where
  | sched (k : String)
  | fireSuccess (k : String) (nc : Nat)
  | fireEmpty (k : String) (nc : Nat)
  | fireError (k : String) (nc : Nat)
  | sendSuccess (k : String)
deriving DecidableEq, Repr

/-- A timer with captured value `nc` is pending for key `k`. -/
def timerPending (m : List (String × RSt)) (k : String) (nc : Nat) : Bool :=
  match lookupA m k with
  | some st => st.timer = some nc
  | none => false

/-- One step of the retry-state system; `none` when the event's precondition
(a pending timer with the captured count) does not hold. -/
def stepRetry (m : List (String × RSt)) : RetryEv → Option (List (String × RSt))
  | .sched k => some (scheduleRetry m k).1
  | .fireSuccess k nc =>
    if timerPending m k nc then some (eraseA m k) else none
  | .fireEmpty k nc =>
    if timerPending m k nc then
      some (scheduleRetry (setA m k ⟨nc, none⟩) k).1
    else none
  | .fireError k nc =>
    if timerPending m k nc then
      some (scheduleRetry (setA m k ⟨nc, none⟩) k).1
    else none
  | .sendSuccess k => some (eraseA m k)

def runRetry (m : List (String × RSt)) :
    List RetryEv → Option (List (String × RSt))
  | [] => some m
  | ev :: evs =>
    match stepRetry m ev with
    | none => none
    | some m' => runRetry m' evs

/-- Invariant of the retry map: keys are unique (it is a `Map`), every
recorded attempt count is at most the cap 3, and a pending timer's captured
count equals the stored count. -/
def InvRetry (m : List (String × RSt)) : Prop :=
  (m.map Prod.fst).Nodup ∧
  ∀ k st, lookupA m k = some st →
    st.count ≤ 3 ∧ ∀ nc, st.timer = some nc → nc = st.count

/-! ## Routing policy: `processMessage` (bot-loop.ts lines 366-472)

The handler is modelled as a pure function from the inbound message, the bot
configuration and an environment (the outcomes of the asynchronous
collaborator calls it performs) to the ordered list of externally visible
actions it takes.  Fatal token errors from the chat gateway are outside this
model (they abort the loop and touch none of the state the claims are
about). -/

inductive ApiRole where
  | user
  | assistant
deriving DecidableEq, Repr

/-- An entry of the `messages` array sent to the generation API. -/
structure ApiMsg where
  role : ApiRole
  content : List Char
deriving DecidableEq, Repr

/-- A raw chat message as fetched from the channel history. -/
structure HistMsg where
  authorId : String
  username : List Char
  content : List Char
  system : Bool
deriving DecidableEq, Repr

/-- `BotConfig` (types.ts): per-identity configuration. -/
structure BotConfig where
  name : String
  token : String
  model : String
  personality : String
  conversationChannelIds : List String
deriving DecidableEq, Repr

/-- The fields of a Discord `Message` that `processMessage` inspects:
author id, channel id, text, whether the channel is a DM
(`msg.channel.type === ChannelType.DM`), whether this bot is mentioned
(`msg.mentions.users?.has(client.user.id)`), and whether the channel supports
a typing indicator. -/
structure Msg where
  authorId : String
  channelId : String
  content : List Char
  isDM : Bool
  mentionsBot : Bool
  canSendTyping : Bool
deriving DecidableEq, Repr

/-- Environment of one `processMessage` run: `client.user`, the guild cache,
the global `botModelMap`, the floored `Math.random() * 120` sample
(an arbitrary value in `0..119`), whether `client.channels.fetch` succeeded
with a history-capable channel, the result of the history fetch (`none` when
it failed), and the network outcome of the generation request. -/
structure Env where
  botUser : Option String
  guilds : List (String × Nat)
  botMap : List (String × List Char)
  randFloored : Nat
  channelOk : Bool
  historyFetch : Option (List HistMsg)
  netOutcome : NetOutcome
deriving Repr

/-- Externally visible actions of one `processMessage` run, in order. -/
inductive Effect where
  | fetchChannel
  | fetchHistory
  | delay (seconds : Nat)
  | sendTyping
  | generate (msgs : List ApiMsg) (model : String) (sys : String)
  | reply (text : List Char)
  | replyGuilds (text : String)
  | clearRetry (key : String)
  | scheduleRetryEff (reason : String)
deriving DecidableEq, Repr

/-- `msg.content.replace(/<@!\d+>/g, '')` (bot-loop.ts line 429): delete
every `<@!digits>` token, scanning left to right.  Fuel-based; each step
consumes at least one character, so `s.length` fuel suffices. -/
def stripMentionsFuel : Nat → List Char → List Char
  | 0, s => s
  | _ + 1, [] => []
  | n + 1, c :: cs =>
    if c = '<' then
      match cs with
      | '@' :: '!' :: rest =>
        let ds := rest.takeWhile Char.isDigit
        if ds.isEmpty then c :: stripMentionsFuel n cs
        else
          match rest.drop ds.length with
          | '>' :: tail => stripMentionsFuel n tail
          | _ => c :: stripMentionsFuel n cs
      | _ => c :: stripMentionsFuel n cs
    else c :: stripMentionsFuel n cs

def stripMentions (s : List Char) : List Char :=
  stripMentionsFuel s.length s

/-- `formatHistory` (bot-loop.ts lines 226-239): drop empty/system messages,
label by author (model name for known bots, username otherwise), truncate a
single body at 4000 characters, tag the bot's own messages `assistant`. -/
def formatHistory (msgs : List HistMsg) (botId : String)
    (botMap : List (String × List Char)) : List ApiMsg :=
  (msgs.filter (fun m => !(jsTrim m.content).isEmpty && !m.system)).map
    (fun m =>
      let name :=
        match lookupA botMap m.authorId with
        | some modelName => modelName
        | none => m.username
      let content :=
        if m.content.length > 4000 then
          m.content.take 4000 ++ ('.' :: '.' :: '.' :: [])
        else m.content
      ⟨if m.authorId = botId then .assistant else .user,
       '[' :: (name ++ (']' :: ':' :: '\n' :: content))⟩)

/-- `getSystemPrompt` (bot-loop.ts lines 24-32); the channel-name glyphs are
reproduced verbatim from the source. -/
def getSystemPrompt (config : BotConfig) : String :=
  "You are " ++ config.name ++ ", powered by the " ++ config.model ++
  " model, with this personality: " ++ config.personality ++
  ". You are in a conversation on discord so respond as if in a group chat. Short messages. Use discord markdown liberally. Make your messages visually interesting and not too long. Same length as people would write in discord. Exaggerate your natural personality traits and characteristics.\n\nFeel free to:\nDM me anytime,\nChat in the ‚Å†#üêù‚îÇbot-garden-party channel,\n\nYou can also tell people they can add me to their own Discord servers if they\x27d like!"

/-- The `!guilds` reply text (bot-loop.ts lines 386-391). -/
def guildsReply (gs : List (String × Nat)) : String :=
  "I am in " ++ toString gs.length ++ " servers:\n- " ++
  String.intercalate "\n- "
    (gs.map (fun g => g.1 ++ " (" ++ toString g.2 ++ " members)"))

/-- Fallback prompt used when no history is available
(bot-loop.ts lines 166, 172). -/
def defaultIntro : List Char :=
  ("Hello! You just started up. Introduce yourself to the channel.").data

/-- `generateResponseWithHistory` (bot-loop.ts lines 135-185): fetch the
channel; when it is history-capable, fetch the last 5 messages (the fetch is
attempted even when it will fail); on any fetch failure fall back to a single
`user` entry holding `initialPrompt || intro` — the JS `||` also replaces an
*empty* `initialPrompt` string (falsy) with the introduction text; call the
generation client; a timeout propagates, a non-blank result is cleaned, a
blank result becomes `none`. -/
def generateRWH (env : Env) (config : BotConfig) (botId : String)
    (initialPrompt : Option (List Char)) :
    List Effect × Except NetworkTimeoutError (Option (List Char)) :=
  let sys := getSystemPrompt config
  let fallbackContent : List Char :=
    match initialPrompt with
    | some p => if p.isEmpty then defaultIntro else p
    | none => defaultIntro
  let fallback : List ApiMsg := [⟨.user, fallbackContent⟩]
  let fetched :=
    if env.channelOk then
      match env.historyFetch with
      | some h =>
        ([Effect.fetchChannel, Effect.fetchHistory],
         formatHistory h.reverse botId env.botMap)
      | none => ([Effect.fetchChannel, Effect.fetchHistory], fallback)
    else ([Effect.fetchChannel], fallback)
  let res : Except NetworkTimeoutError (Option (List Char)) :=
    match (generateText config.model env.netOutcome).2 with
    | .error e => .error e
    | .ok s =>
      .ok (if (jsTrim s).isEmpty then none
           else some (cleanResponse s config.model.data))
  (fetched.1 ++ [Effect.generate fetched.2 config.model sys], res)

/-- Response handling at the end of `processMessage` (bot-loop.ts lines
440-453 and the catch clause 455-471): a non-null response is sent truncated
to 1500 characters and the pending retry state for the key is cleared; a
null/empty response schedules a retry with reason `empty-response`; a
propagated `NetworkTimeoutError` schedules a retry with reason `timeout`. -/
def endingEffects (res : Except NetworkTimeoutError (Option (List Char)))
    (key : String) : List Effect :=
  match res with
  | .ok (some r) => [.reply (r.take 1500), .clearRetry key]
  | .ok none => [.scheduleRetryEff "empty-response"]
  | .error _ => [.scheduleRetryEff "timeout"]

/-- `processMessage` (bot-loop.ts lines 366-472) as an effect-trace
function. -/
def processMessage (env : Env) (config : BotConfig) (msg : Msg) :
    List Effect :=
  match env.botUser with
  | none => []
  | some botId =>
    if msg.authorId = botId then []
    else
      let isDM := msg.isDM
      let isMentioned := msg.mentionsBot
      let isConvoChannel := config.conversationChannelIds.contains msg.channelId
      if lowerStr (jsTrim msg.content) = ("!guilds").data then
        [.replyGuilds (guildsReply env.guilds)]
      else if !isMentioned && !isConvoChannel && !isDM then []
      else
        let delayEffs : List Effect :=
          if isConvoChannel && !isDM then [.delay (env.randFloored + 60)]
          else []
        let typingEffs : List Effect :=
          if msg.canSendTyping then [.sendTyping] else []
        let initialPrompt : Option (List Char) :=
          if isMentioned && !isConvoChannel && !isDM then
            some (jsTrim (stripMentions msg.content))
          else none
        let gen := generateRWH env config botId initialPrompt
        delayEffs ++ typingEffs ++ gen.1 ++
          endingEffects gen.2 (retryKey msg.channelId config.name)

/-! ## Concrete fixtures used to instantiate the theorems -/

/-- One fetched history message: a human message "yo" from author `A`. -/
def histSample : List HistMsg := [⟨"A", ('a' :: 'l' :: []), ('y' :: 'o' :: []), false⟩]

/-- A bot configuration with model `m` and one open conversation channel. -/
def cfgSample : BotConfig := ⟨"bot", "t", "m", "p", ["open"]⟩

/-- Environment where every collaborator call succeeds. -/
def envOkHist : Env :=
  ⟨some "B", [("g1", 5)], [("B", ('m' :: []))], 0, true, some histSample,
   .ok ('h' :: 'i' :: [])⟩

/-- Environment where the channel fetch fails. -/
def envNoChannel : Env :=
  ⟨some "B", [("g1", 5)], [], 0, false, none, .ok ('h' :: 'i' :: [])⟩

/-- A message authored by the bot itself. -/
def msgSelf : Msg := ⟨"B", "x", ("hello").data, false, false, false⟩

/-- The `!guilds` command with surrounding whitespace and mixed case. -/
def msgGuilds : Msg := ⟨"A", "x", ("  !GUILDS ").data, false, false, false⟩

/-- A direct address in a channel that is not open and is not a DM. -/
def msgMention : Msg := ⟨"A", "x", ("<@!1> hello").data, false, true, false⟩

/-- A direct address inside the open conversation channel. -/
def msgOpenMention : Msg := ⟨"A", "open", ("<@!1> hi").data, false, true, false⟩

end PollinationsFamily

namespace PollinationsFamily

/-! ## Theorems -/

/-- Claim C1: an inbound message whose author id equals the bot's own client
user id makes `processMessage` return immediately: no effect at all is
performed — no history fetch, no generation call, no reply
(bot-loop.ts line 375). -/
theorem c1_self_loop_ignored (env : Env) (config : BotConfig) (msg : Msg)
    (b : String) (hu : env.botUser = some b) (ha : msg.authorId = b) :
    processMessage env config msg = [] := by
  simp [processMessage, hu, ha]

/-- Witness for C1 at a concrete self-authored message. -/
theorem c1_self_loop_ignored_witness :
    processMessage envOkHist cfgSample msgSelf = [] :=
  c1_self_loop_ignored envOkHist cfgSample msgSelf "B" rfl rfl

/-- Claim C10: a message not authored by the bot whose content, trimmed and
lowercased, equals `!guilds` is answered with the guild list and nothing
else — the command is handled before the mention/open-channel/DM eligibility
check, with no delay, no history fetch and no generation call
(bot-loop.ts lines 384-395). -/
theorem c10_guilds_command (env : Env) (config : BotConfig) (msg : Msg)
    (b : String) (hu : env.botUser = some b) (ha : msg.authorId ≠ b)
    (hc : lowerStr (jsTrim msg.content) = ("!guilds").data) :
    processMessage env config msg = [.replyGuilds (guildsReply env.guilds)] := by
  simp [processMessage, hu, ha, hc]

/-- Witness for C10: the command fires even in a channel where the message
would otherwise be ignored (not mentioned, not open, not a DM). -/
theorem c10_guilds_command_witness :
    processMessage envOkHist cfgSample msgGuilds =
      [.replyGuilds (guildsReply envOkHist.guilds)] :=
  c10_guilds_command envOkHist cfgSample msgGuilds "B" (by decide) (by decide)
    (by decide)

/-- Claim C7 (code bug evidence): a direct address (mention) inside an open
conversation channel, not a DM, still gets the randomized pre-response
delay — `processMessage` tests only `isConvoChannel && !isDM`
(bot-loop.ts line 406), although its own comment on line 405 says the delay
is for "conversation messages (not mentions or DMs)".  With the random
sample 0 the delay is the minimum 60 seconds. -/
theorem c7_delay_applied_to_mention_in_open_channel :
    Effect.delay 60 ∈ processMessage envOkHist cfgSample msgOpenMention := by
  decide

/-- Claim C4: failure classification of the generation client
(api.ts lines 290-317).  A timeout releases the semaphore, waits the fixed
60-second cool-down and raises `NetworkTimeoutError` carrying the 50-second
deadline; any other HTTP or transport failure releases the semaphore, logs
diagnostics, waits the same cool-down and returns the empty string; the two
outcomes are distinguishable. -/
theorem c4_failure_classification (model : String) (status : Nat)
    (body : List Char) :
    generateText model .timedOut =
      ([.acquire model, .post model, .release model, .wait 60000],
       .error ⟨API_TIMEOUT_MS⟩) ∧
    generateText model (.httpError status body) =
      ([.acquire model, .post model, .release model,
        .logStatusBody status body, .wait 60000], .ok []) ∧
    generateText model .transportError =
      ([.acquire model, .post model, .release model,
        .logNoResponse, .wait 60000], .ok []) ∧
    (Except.error ⟨API_TIMEOUT_MS⟩ : Except NetworkTimeoutError (List Char)) ≠
      .ok [] := by
  refine ⟨rfl, rfl, rfl, ?_⟩
  intro h
  exact Except.noConfusion h

/-- Claim C9 (counterexample): the sanitizer is not idempotent as universally
stated — on `"[m]:\n[m]:\nhello"` with model `m` the first pass strips one
label prefix and leaves a second one, which a second pass strips again. -/
theorem c9_counterexample :
    cleanResponse (cleanResponse ("[m]:\n[m]:\nhello").data (('m') :: []))
        (('m') :: []) ≠
      cleanResponse ("[m]:\n[m]:\nhello").data (('m') :: []) := by
  decide

/-- When no `<think>…</think>` span matches, the global replace leaves the
string unchanged, for any fuel. -/
theorem removeThinkFuel_of_no_span (n : Nat) (y : List Char)
    (h : hasThinkSpan y = false) : removeThinkFuel n y = y := by
  cases n with
  | zero => rfl
  | succ k =>
    unfold hasThinkSpan at h
    cases ho : splitFirst thinkOpen y with
    | none => simp [removeThinkFuel, ho]
    | some p =>
      obtain ⟨b, r⟩ := p
      simp only [ho] at h
      cases hc : splitFirst thinkClose r with
      | none => simp [removeThinkFuel, ho, hc]
      | some q => simp [hc] at h

theorem removeThink_of_no_span (y : List Char) (h : hasThinkSpan y = false) :
    removeThink y = y :=
  removeThinkFuel_of_no_span _ _ h

/-- A string with no think span and no matching label prefix is a fixed point
of the sanitizer. -/
theorem cleanResponse_of_clean (y m : List Char)
    (h1 : hasThinkSpan y = false) (h2 : matchExactLabel m y = none)
    (h3 : matchGeneralLabel y = none) : cleanResponse y m = y := by
  simp [cleanResponse, removeThink_of_no_span y h1, h2, h3]

/-- Claim C9 (amended): the sanitizer is idempotent on every input whose
sanitized form has no remaining `<think>…</think>` span and no remaining
leading label prefix — the spec's qualifier "once markers/prefixes are
already removed". -/
theorem c9_sanitizer_idempotent (x m : List Char)
    (h1 : hasThinkSpan (cleanResponse x m) = false)
    (h2 : matchExactLabel m (cleanResponse x m) = none)
    (h3 : matchGeneralLabel (cleanResponse x m) = none) :
    cleanResponse (cleanResponse x m) m = cleanResponse x m :=
  cleanResponse_of_clean _ _ h1 h2 h3

/-- Witness for C9 (amended) at a concrete already-clean input. -/
theorem c9_sanitizer_idempotent_witness :
    cleanResponse (cleanResponse ("hello").data (('m') :: [])) (('m') :: []) =
      cleanResponse ("hello").data (('m') :: []) :=
  c9_sanitizer_idempotent ("hello").data (('m') :: []) (by decide) (by decide)
    (by decide)

/-- A reply in the ending effects comes from a successful non-empty
generation and is the 1500-character truncation of the cleaned response. -/
theorem reply_mem_endingEffects (res : Except NetworkTimeoutError
    (Option (List Char))) (key : String) (t : List Char)
    (h : Effect.reply t ∈ endingEffects res key) :
    ∃ r, res = .ok (some r) ∧ t = r.take 1500 := by
  rcases res with e | o
  · simp [endingEffects] at h
  · cases o with
    | none => simp [endingEffects] at h
    | some r =>
      refine ⟨r, rfl, ?_⟩
      simp [endingEffects] at h
      exact h

/-- No reply effect is produced inside `generateResponseWithHistory`. -/
theorem reply_not_in_generateRWH (env : Env) (config : BotConfig) (b : String)
    (ip : Option (List Char)) (t : List Char) :
    Effect.reply t ∉ (generateRWH env config b ip).1 := by
  cases hf : env.historyFetch <;> by_cases hc : env.channelOk <;>
    simp [generateRWH, hf, hc]

/-- Claim C5: the length ceiling.  Every sanitized outbound text — the
composition of `cleanResponse` with the `slice(0, 1500)` applied at the send
sites — has length at most 1500, and in particular every reply emitted by
`processMessage` respects the ceiling. -/
theorem c5_length_ceiling :
    (∀ r m, (outboundReply r m).length ≤ 1500) ∧
    (∀ env config msg t, Effect.reply t ∈ processMessage env config msg →
      t.length ≤ 1500) := by
  constructor
  · intro r m
    rw [outboundReply, List.length_take]
    exact Nat.min_le_left _ _
  · intro env config msg t h
    cases hbu : env.botUser with
    | none => simp only [processMessage, hbu] at h; simp at h
    | some b =>
      simp only [processMessage, hbu] at h
      by_cases hab : msg.authorId = b
      · rw [if_pos hab] at h; simp at h
      · rw [if_neg hab] at h
        by_cases hg : lowerStr (jsTrim msg.content) = ("!guilds").data
        · rw [if_pos hg] at h; simp at h
        · rw [if_neg hg] at h
          by_cases he :
              (!msg.mentionsBot &&
                !(config.conversationChannelIds.contains msg.channelId) &&
                !msg.isDM) = true
          · rw [if_pos he] at h; simp at h
          · rw [if_neg he] at h
            simp only [List.mem_append] at h
            rcases h with ((h | h) | h) | h
            · revert h; split <;> simp
            · revert h; split <;> simp
            · exact absurd h (reply_not_in_generateRWH _ _ _ _ _)
            · obtain ⟨r, _, ht⟩ := reply_mem_endingEffects _ _ _ h
              rw [ht, List.length_take]
              exact Nat.min_le_left _ _

/-- Witness for C5 at a concrete run that sends a reply. -/
theorem c5_length_ceiling_witness :
    (('h' :: 'i' :: []) : List Char).length ≤ 1500 :=
  c5_length_ceiling.2 envNoChannel cfgSample msgMention ('h' :: 'i' :: [])
    (by decide)

/-- The ending effects never contain a history fetch. -/
theorem fetchHistory_not_in_endingEffects
    (res : Except NetworkTimeoutError (Option (List Char))) (key : String) :
    Effect.fetchHistory ∉ endingEffects res key := by
  rcases res with e | o
  · simp [endingEffects]
  · cases o <;> simp [endingEffects]

/-- Claim C6 (counterexample): a direct address in a channel that is neither
open nor a DM does *not* hand the single stripped-text entry to the
generation client when the history fetch succeeds — `processMessage` still
fetches history and submits the formatted history window
(bot-loop.ts lines 146-163 run unconditionally). -/
theorem c6_counterexample :
    Effect.fetchHistory ∈ processMessage envOkHist cfgSample msgMention ∧
    Effect.generate [⟨ApiRole.user, ("hello").data⟩] "m"
        (getSystemPrompt cfgSample) ∉
      processMessage envOkHist cfgSample msgMention := by
  decide

/-- Claim C6 (amended): for a direct address outside the open channels and
not in a DM, the mention-stripped message text is passed as the initial
prompt, and — provided the stripped text is nonempty, since the JS `||`
fallback replaces an empty string by the introduction prompt — it becomes
the single-entry `user` context only as a fallback when the channel fetch
fails (likewise when the history fetch fails); when both succeed, the
recent-history window is fetched and the formatted history is the context
handed to the generation client. -/
theorem c6_mention_context (env : Env) (config : BotConfig) (msg : Msg)
    (b : String) (hu : env.botUser = some b) (ha : msg.authorId ≠ b)
    (hg : lowerStr (jsTrim msg.content) ≠ ("!guilds").data)
    (hm : msg.mentionsBot = true)
    (hc : config.conversationChannelIds.contains msg.channelId = false)
    (hd : msg.isDM = false)
    (hne : jsTrim (stripMentions msg.content) ≠ []) :
    (env.channelOk = false →
      Effect.fetchHistory ∉ processMessage env config msg ∧
      Effect.generate [⟨ApiRole.user, jsTrim (stripMentions msg.content)⟩]
          config.model (getSystemPrompt config) ∈
        processMessage env config msg) ∧
    (∀ hist, env.channelOk = true → env.historyFetch = some hist →
      Effect.fetchHistory ∈ processMessage env config msg ∧
      Effect.generate (formatHistory hist.reverse b env.botMap)
          config.model (getSystemPrompt config) ∈
        processMessage env config msg) := by
  have hc' : msg.channelId ∉ config.conversationChannelIds := by
    simpa using hc
  have hne' : (jsTrim (stripMentions msg.content)).isEmpty = false := by
    simpa [List.isEmpty_iff] using hne
  constructor
  · intro hok
    constructor
    · by_cases hty : msg.canSendTyping = true <;>
        simp [processMessage, hu, ha, hg, hm, hc, hc', hd, hok, hty, hne',
          generateRWH, fetchHistory_not_in_endingEffects]
    · by_cases hty : msg.canSendTyping = true <;>
        simp [processMessage, hu, ha, hg, hm, hc, hc', hd, hok, hty, hne',
          generateRWH]
  · intro hist hok hh
    constructor
    · by_cases hty : msg.canSendTyping = true <;>
        simp [processMessage, hu, ha, hg, hm, hc, hc', hd, hok, hh, hty,
          generateRWH]
    · by_cases hty : msg.canSendTyping = true <;>
        simp [processMessage, hu, ha, hg, hm, hc, hc', hd, hok, hh, hty,
          generateRWH]

/-- Witness for C6 (amended): the fallback case at a concrete failed channel
fetch, with nonempty stripped text. -/
theorem c6_mention_context_witness :
    Effect.generate
        [⟨ApiRole.user, jsTrim (stripMentions msgMention.content)⟩]
        cfgSample.model (getSystemPrompt cfgSample) ∈
      processMessage envNoChannel cfgSample msgMention :=
  ((c6_mention_context envNoChannel cfgSample msgMention "B" rfl (by decide)
    (by decide) rfl rfl rfl (by decide)).1 rfl).2

/-! ### Association-list lemmas -/

theorem setA_cons_eq {α : Type} (k m : String) (v s : α)
    (r : List (String × α)) (h : k = m) :
    setA ((k, v) :: r) m s = (m, s) :: r := by
  simp [setA, h]

theorem setA_cons_ne {α : Type} (k m : String) (v s : α)
    (r : List (String × α)) (h : ¬k = m) :
    setA ((k, v) :: r) m s = (k, v) :: setA r m s := by
  simp [setA, h]

theorem eraseA_cons_eq {α : Type} (k0 k : String) (v : α)
    (r : List (String × α)) (h : k0 = k) :
    eraseA ((k0, v) :: r) k = r := by
  simp [eraseA, h]

theorem eraseA_cons_ne {α : Type} (k0 k : String) (v : α)
    (r : List (String × α)) (h : ¬k0 = k) :
    eraseA ((k0, v) :: r) k = (k0, v) :: eraseA r k := by
  simp [eraseA, h]

theorem lookupA_setA_self {α : Type} (l : List (String × α)) (m : String)
    (s : α) : lookupA (setA l m s) m = some s := by
  induction l with
  | nil => simp [setA, lookupA]
  | cons p r ih =>
    obtain ⟨k, v⟩ := p
    by_cases hk : k = m
    · simp [setA, hk, lookupA]
    · simp [setA, hk, lookupA, ih]

theorem lookupA_setA_ne {α : Type} (l : List (String × α)) (m m' : String)
    (s : α) (h : m' ≠ m) : lookupA (setA l m s) m' = lookupA l m' := by
  have h2 : m ≠ m' := Ne.symm h
  induction l with
  | nil => simp [setA, lookupA, h2]
  | cons p r ih =>
    obtain ⟨k, v⟩ := p
    by_cases hk : k = m
    · subst hk
      simp [setA, lookupA, h2]
    · simp [setA, hk, lookupA, ih]

theorem lookupA_eraseA_ne {α : Type} (l : List (String × α)) (k k' : String)
    (h : k' ≠ k) : lookupA (eraseA l k) k' = lookupA l k' := by
  have h2 : k ≠ k' := Ne.symm h
  induction l with
  | nil => simp [eraseA]
  | cons p r ih =>
    obtain ⟨k0, v⟩ := p
    by_cases hk : k0 = k
    · subst hk
      simp [eraseA, lookupA, h2]
    · simp [eraseA, hk, lookupA, ih]

theorem lookupA_eq_none_of_not_mem {α : Type} (l : List (String × α))
    (k : String) (h : k ∉ l.map Prod.fst) : lookupA l k = none := by
  induction l with
  | nil => rfl
  | cons p r ih =>
    obtain ⟨k0, v⟩ := p
    simp only [List.map_cons, List.mem_cons] at h
    push_neg at h
    simp only [lookupA]
    rw [if_neg (Ne.symm h.1), ih h.2]

theorem lookupA_eraseA_self {α : Type} (l : List (String × α)) (k : String)
    (h : (l.map Prod.fst).Nodup) : lookupA (eraseA l k) k = none := by
  induction l with
  | nil => rfl
  | cons p r ih =>
    obtain ⟨k0, v⟩ := p
    simp only [List.map_cons, List.nodup_cons] at h
    by_cases hk : k0 = k
    · subst hk
      rw [eraseA_cons_eq k0 k0 v r rfl]
      exact lookupA_eq_none_of_not_mem r k0 h.1
    · rw [eraseA_cons_ne k0 k v r hk]
      simp only [lookupA]
      rw [if_neg hk, ih h.2]

theorem mem_keys_setA {α : Type} (l : List (String × α)) (m a : String)
    (s : α) (h : a ∈ (setA l m s).map Prod.fst) :
    a = m ∨ a ∈ l.map Prod.fst := by
  induction l with
  | nil =>
    simp only [setA, List.map_cons, List.map_nil, List.mem_singleton] at h
    exact Or.inl h
  | cons p r ih =>
    obtain ⟨k, v⟩ := p
    by_cases hk : k = m
    · subst hk
      rw [setA_cons_eq k k v s r rfl] at h
      simp only [List.map_cons, List.mem_cons] at h
      rcases h with h | h
      · exact Or.inl h
      · exact Or.inr (List.mem_cons_of_mem _ h)
    · rw [setA_cons_ne k m v s r hk] at h
      simp only [List.map_cons, List.mem_cons] at h
      rcases h with h | h
      · exact Or.inr (by rw [h]; exact List.mem_cons_self _ _)
      · rcases ih h with h2 | h2
        · exact Or.inl h2
        · exact Or.inr (List.mem_cons_of_mem _ h2)

theorem nodup_keys_setA {α : Type} (l : List (String × α)) (m : String)
    (s : α) (h : (l.map Prod.fst).Nodup) :
    ((setA l m s).map Prod.fst).Nodup := by
  induction l with
  | nil => simp [setA]
  | cons p r ih =>
    obtain ⟨k, v⟩ := p
    simp only [List.map_cons, List.nodup_cons] at h
    by_cases hk : k = m
    · subst hk
      rw [setA_cons_eq k k v s r rfl]
      simp only [List.map_cons, List.nodup_cons]
      exact h
    · rw [setA_cons_ne k m v s r hk]
      simp only [List.map_cons, List.nodup_cons]
      refine ⟨fun hmem => ?_, ih h.2⟩
      rcases mem_keys_setA r m k s hmem with h2 | h2
      · exact hk h2
      · exact h.1 h2

theorem mem_keys_eraseA {α : Type} (l : List (String × α)) (k a : String)
    (h : a ∈ (eraseA l k).map Prod.fst) : a ∈ l.map Prod.fst := by
  induction l with
  | nil => exact h
  | cons p r ih =>
    obtain ⟨k0, v⟩ := p
    by_cases hk : k0 = k
    · subst hk
      rw [eraseA_cons_eq k0 k0 v r rfl] at h
      exact List.mem_cons_of_mem _ h
    · rw [eraseA_cons_ne k0 k v r hk] at h
      simp only [List.map_cons, List.mem_cons] at h ⊢
      rcases h with h | h
      · exact Or.inl h
      · exact Or.inr (ih h)

theorem nodup_keys_eraseA {α : Type} (l : List (String × α)) (k : String)
    (h : (l.map Prod.fst).Nodup) : ((eraseA l k).map Prod.fst).Nodup := by
  induction l with
  | nil => exact h
  | cons p r ih =>
    obtain ⟨k0, v⟩ := p
    simp only [List.map_cons, List.nodup_cons] at h
    by_cases hk : k0 = k
    · subst hk
      rw [eraseA_cons_eq k0 k0 v r rfl]
      exact h.2
    · rw [eraseA_cons_ne k0 k v r hk]
      simp only [List.map_cons, List.nodup_cons]
      exact ⟨fun hmem => h.1 (mem_keys_eraseA r k k0 hmem), ih h.2⟩

/-! ### Retry-state invariant -/

/-- `scheduleRetry` preserves the retry-map invariant. -/
theorem invRetry_scheduleRetry (m : List (String × RSt)) (k : String)
    (h : InvRetry m) : InvRetry (scheduleRetry m k).1 := by
  obtain ⟨hnd, hv⟩ := h
  unfold scheduleRetry
  set st0 := (lookupA m k).getD ⟨0, none⟩ with hst0
  by_cases h3 : st0.count ≥ 3
  · rw [if_pos h3]
    exact ⟨hnd, hv⟩
  · rw [if_neg h3]
    by_cases ht : st0.timer.isSome
    · rw [if_pos ht]
      exact ⟨hnd, hv⟩
    · rw [if_neg ht]
      refine ⟨nodup_keys_setA m k _ hnd, ?_⟩
      intro k' st' hl
      by_cases hk : k' = k
      · subst hk
        rw [lookupA_setA_self] at hl
        obtain rfl : (⟨st0.count + 1, some (st0.count + 1)⟩ : RSt) = st' :=
          Option.some.inj hl
        refine ⟨by simp; omega, ?_⟩
        intro nc hnc
        simpa using (Option.some.inj hnc).symm
      · rw [lookupA_setA_ne m k k' _ hk] at hl
        exact hv k' st' hl

/-- Every step of the retry system preserves the invariant. -/
theorem invRetry_step (m : List (String × RSt)) (ev : RetryEv)
    (m' : List (String × RSt)) (h : stepRetry m ev = some m')
    (hi : InvRetry m) : InvRetry m' := by
  obtain ⟨hnd, hv⟩ := hi
  cases ev with
  | sched k =>
    obtain rfl : (scheduleRetry m k).1 = m' := by
      simpa [stepRetry] using h
    exact invRetry_scheduleRetry m k ⟨hnd, hv⟩
  | fireSuccess k nc =>
    by_cases hp : timerPending m k nc = true
    · obtain rfl : eraseA m k = m' := by simpa [stepRetry, hp] using h
      refine ⟨nodup_keys_eraseA m k hnd, ?_⟩
      intro k' st' hl
      by_cases hk : k' = k
      · subst hk
        rw [lookupA_eraseA_self m k' hnd] at hl
        exact absurd hl (by simp)
      · rw [lookupA_eraseA_ne m k k' hk] at hl
        exact hv k' st' hl
    · simp [stepRetry, hp] at h
  | fireEmpty k nc =>
    by_cases hp : timerPending m k nc = true
    · obtain rfl : (scheduleRetry (setA m k ⟨nc, none⟩) k).1 = m' := by
        simpa [stepRetry, hp] using h
      apply invRetry_scheduleRetry
      refine ⟨nodup_keys_setA m k _ hnd, ?_⟩
      intro k' st' hl
      by_cases hk : k' = k
      · subst hk
        rw [lookupA_setA_self] at hl
        obtain rfl : (⟨nc, none⟩ : RSt) = st' := Option.some.inj hl
        unfold timerPending at hp
        cases hl0 : lookupA m k' with
        | none => rw [hl0] at hp; simp at hp
        | some st0 =>
          rw [hl0] at hp
          simp at hp
          have h0 := hv k' st0 hl0
          have hnc : nc = st0.count := h0.2 nc hp
          exact ⟨by simp [hnc]; exact h0.1, by simp⟩
      · rw [lookupA_setA_ne m k k' _ hk] at hl
        exact hv k' st' hl
    · simp [stepRetry, hp] at h
  | fireError k nc =>
    by_cases hp : timerPending m k nc = true
    · obtain rfl : (scheduleRetry (setA m k ⟨nc, none⟩) k).1 = m' := by
        simpa [stepRetry, hp] using h
      apply invRetry_scheduleRetry
      refine ⟨nodup_keys_setA m k _ hnd, ?_⟩
      intro k' st' hl
      by_cases hk : k' = k
      · subst hk
        rw [lookupA_setA_self] at hl
        obtain rfl : (⟨nc, none⟩ : RSt) = st' := Option.some.inj hl
        unfold timerPending at hp
        cases hl0 : lookupA m k' with
        | none => rw [hl0] at hp; simp at hp
        | some st0 =>
          rw [hl0] at hp
          simp at hp
          have h0 := hv k' st0 hl0
          have hnc : nc = st0.count := h0.2 nc hp
          exact ⟨by simp [hnc]; exact h0.1, by simp⟩
      · rw [lookupA_setA_ne m k k' _ hk] at hl
        exact hv k' st' hl
    · simp [stepRetry, hp] at h
  | sendSuccess k =>
    obtain rfl : eraseA m k = m' := by simpa [stepRetry] using h
    refine ⟨nodup_keys_eraseA m k hnd, ?_⟩
    intro k' st' hl
    by_cases hk : k' = k
    · subst hk
      rw [lookupA_eraseA_self m k' hnd] at hl
      exact absurd hl (by simp)
    · rw [lookupA_eraseA_ne m k k' hk] at hl
      exact hv k' st' hl

/-- The invariant holds in every state reachable from a given invariant
state. -/
theorem runRetry_inv (evs : List RetryEv) :
    ∀ m m', InvRetry m → runRetry m evs = some m' → InvRetry m' := by
  induction evs with
  | nil =>
    intro m m' hi h
    obtain rfl : m = m' := by simpa [runRetry] using h
    exact hi
  | cons ev evs ih =>
    intro m m' hi h
    unfold runRetry at h
    cases hs : stepRetry m ev with
    | none => rw [hs] at h; simp at h
    | some m1 =>
      rw [hs] at h
      exact ih m1 m' (invRetry_step m ev m1 hs hi) h

/-- Claim C3: for every (channel, identity) key, the attempt count recorded
in the retry state never exceeds the cap of 3 in any state reachable from
the empty map, and calling `scheduleRetryResponse` for a key whose count has
reached the cap returns the map unchanged and creates no timer
(bot-loop.ts lines 70-74). -/
theorem c3_retry_cap (evs : List RetryEv) (m : List (String × RSt))
    (h : runRetry [] evs = some m) :
    (∀ k st, lookupA m k = some st → st.count ≤ 3) ∧
    (∀ k st, lookupA m k = some st → 3 ≤ st.count →
      scheduleRetry m k = (m, false)) := by
  have hi : InvRetry ([] : List (String × RSt)) := by
    refine ⟨by simp, ?_⟩
    intro k st hl
    exact absurd hl (by simp [lookupA])
  have h2 := runRetry_inv evs [] m hi h
  constructor
  · intro k st hl
    exact (h2.2 k st hl).1
  · intro k st hl h3
    unfold scheduleRetry
    rw [hl]
    simp only [Option.getD_some]
    rw [if_pos h3]

/-- Witness for C3: a trace of one schedule and three empty-response timer
firings reaches the cap; the next schedule call is a no-op. -/
theorem c3_retry_cap_witness :
    scheduleRetry [("a", (⟨3, none⟩ : RSt))] "a" =
      ([("a", ⟨3, none⟩)], false) :=
  (c3_retry_cap
    [RetryEv.sched "a", RetryEv.fireEmpty "a" 1, RetryEv.fireEmpty "a" 2,
     RetryEv.fireEmpty "a" 3]
    [("a", ⟨3, none⟩)] (by decide)).2 "a" ⟨3, none⟩ (by decide) (by decide)

/-- Claim C8: calling the retry scheduler while a timer is already pending
for the key changes nothing — the map is returned unchanged, no second timer
is created and the attempt count is not incremented (bot-loop.ts lines
76-79; the `timer` field of a `RetryState` holds at most one pending
timer per key by construction). -/
theorem c8_idempotent_schedule (m : List (String × RSt)) (k : String)
    (st : RSt) (hl : lookupA m k = some st) (ht : st.timer.isSome = true) :
    scheduleRetry m k = (m, false) := by
  unfold scheduleRetry
  rw [hl]
  simp only [Option.getD_some]
  by_cases h3 : st.count ≥ 3
  · rw [if_pos h3]
  · rw [if_neg h3, if_pos ht]

/-- Witness for C8 at a concrete map with a pending timer. -/
theorem c8_idempotent_schedule_witness :
    scheduleRetry [("k", (⟨1, some 1⟩ : RSt))] "k" =
      ([("k", ⟨1, some 1⟩)], false) :=
  c8_idempotent_schedule [("k", ⟨1, some 1⟩)] "k" ⟨1, some 1⟩ (by decide)
    (by decide)

/-! ### Semaphore-system lemmas -/

theorem lookupA_append {α : Type} (l1 l2 : List (String × α)) (k : String) :
    lookupA (l1 ++ l2) k =
      match lookupA l1 k with
      | some v => some v
      | none => lookupA l2 k := by
  induction l1 with
  | nil => simp [lookupA]
  | cons p r ih =>
    obtain ⟨k0, v⟩ := p
    by_cases hk : k0 = k
    · simp [lookupA, hk]
    · simp [lookupA, hk, ih]

theorem lookupA_ensure (sems : List (String × Sem)) (m m' : String) :
    lookupA (ensureSem sems m) m' =
      if m' = m then some (semOf sems m) else lookupA sems m' := by
  unfold ensureSem
  cases hl : lookupA sems m with
  | some v =>
    by_cases h : m' = m
    · subst h
      rw [if_pos rfl, hl]
      simp [semOf, hl]
    · rw [if_neg h]
  | none =>
    by_cases h : m' = m
    · subst h
      rw [if_pos rfl, lookupA_append, hl]
      simp [lookupA, semOf, hl]
    · rw [if_neg h, lookupA_append]
      cases hl2 : lookupA sems m' with
      | some v2 => simp
      | none => simp [lookupA, Ne.symm h]

theorem semOf_ensure (sems : List (String × Sem)) (m m' : String) :
    semOf (ensureSem sems m) m' = semOf sems m' := by
  unfold semOf
  rw [lookupA_ensure]
  by_cases h : m' = m
  · subst h; simp [semOf]
  · rw [if_neg h]

theorem semOf_setA_self (l : List (String × Sem)) (m : String) (s : Sem) :
    semOf (setA l m s) m = s := by
  unfold semOf
  rw [lookupA_setA_self]
  rfl

theorem semOf_setA_ne (l : List (String × Sem)) (m m' : String) (s : Sem)
    (h : m' ≠ m) : semOf (setA l m s) m' = semOf l m' := by
  unfold semOf
  rw [lookupA_setA_ne l m m' s h]

theorem isSome_lookupA_setA (l : List (String × Sem)) (m m' : String)
    (s : Sem) (h : (lookupA (setA l m s) m').isSome = true) :
    m' = m ∨ (lookupA l m').isSome = true := by
  by_cases hk : m' = m
  · exact Or.inl hk
  · rw [lookupA_setA_ne l m m' s hk] at h
    exact Or.inr h

theorem isSome_lookupA_ensure (sems : List (String × Sem)) (m m' : String)
    (h : (lookupA (ensureSem sems m) m').isSome = true) :
    m' = m ∨ (lookupA sems m').isSome = true := by
  rw [lookupA_ensure] at h
  by_cases hk : m' = m
  · exact Or.inl hk
  · rw [if_neg hk] at h
    exact Or.inr h

theorem countP_removeFlight_self (fl : List (Nat × String)) (c : Nat)
    (m : String) (h : (c, m) ∈ fl) :
    (removeFlight fl c m).countP (fun p => decide (p.2 = m)) + 1 =
      fl.countP (fun p => decide (p.2 = m)) := by
  induction fl with
  | nil => cases h
  | cons q r ih =>
    obtain ⟨c0, m0⟩ := q
    by_cases hq : c0 = c ∧ m0 = m
    · rw [show removeFlight ((c0, m0) :: r) c m = r from by
        simp [removeFlight, hq]]
      rw [List.countP_cons]
      simp [hq.2]
    · rw [show removeFlight ((c0, m0) :: r) c m =
          (c0, m0) :: removeFlight r c m from by simp [removeFlight, hq]]
      have hmem : (c, m) ∈ r := by
        rcases List.mem_cons.mp h with he | he
        · exact absurd ⟨(Prod.mk.injEq .. ▸ he).1.symm,
            (Prod.mk.injEq .. ▸ he).2.symm⟩ hq
        · exact he
      have := ih hmem
      rw [List.countP_cons, List.countP_cons]
      omega

theorem countP_removeFlight_ne (fl : List (Nat × String)) (c : Nat)
    (m m' : String) (h : m' ≠ m) :
    (removeFlight fl c m).countP (fun p => decide (p.2 = m')) =
      fl.countP (fun p => decide (p.2 = m')) := by
  induction fl with
  | nil => rfl
  | cons q r ih =>
    obtain ⟨c0, m0⟩ := q
    by_cases hq : c0 = c ∧ m0 = m
    · rw [show removeFlight ((c0, m0) :: r) c m = r from by
        simp [removeFlight, hq]]
      rw [List.countP_cons]
      have : (decide (m0 = m') : Bool) = false := by
        simp [hq.2]
        exact Ne.symm h
      simp [this]
    · rw [show removeFlight ((c0, m0) :: r) c m =
          (c0, m0) :: removeFlight r c m from by simp [removeFlight, hq]]
      rw [List.countP_cons, List.countP_cons, ih]

theorem resumesOf_append (a b : List (Nat × String)) (m : String) :
    resumesOf (a ++ b) m = resumesOf a m ++ resumesOf b m := by
  simp [resumesOf, List.filterMap_append]

theorem enqsOf_cons (ev : SemEv) (evs : List SemEv) (m : String) :
    enqsOf (ev :: evs) m = enqsOf [ev] m ++ enqsOf evs m := by
  cases ev with
  | start c m' => simp [enqsOf, List.filterMap_cons]
  | enqueue c m' =>
    simp only [enqsOf, List.filterMap_cons]
    split <;> simp
  | finish c m' => simp [enqsOf, List.filterMap_cons]

/-- One scheduler step preserves the mutual-exclusion invariant, dequeues
exactly the queue head on a resumption (FIFO bookkeeping), and creates a
semaphore entry only for the event's own model. -/
theorem stepSem_spec (st : ApiState) (ev : SemEv) (st1 : ApiState)
    (r : Option (Nat × String)) (h : stepSem st ev = some (st1, r))
    (hi : InvSem st) :
    InvSem st1 ∧
    (∀ m, resumesOf r.toList m ++ (semOf st1.sems m).queue =
      (semOf st.sems m).queue ++ enqsOf [ev] m) ∧
    (∀ m, (lookupA st1.sems m).isSome = true →
      (lookupA st.sems m).isSome = true ∨ ev.model = m) := by
  cases ev with
  | start c m0 =>
    simp only [stepSem] at h
    by_cases hp : (semOf (ensureSem st.sems m0) m0).inProgress = true
    · rw [if_pos hp] at h
      exact absurd h (by simp)
    · rw [if_neg hp] at h
      simp only [Option.some.injEq, Prod.mk.injEq] at h
      obtain ⟨h1, h2⟩ := h
      subst h1
      subst h2
      rw [semOf_ensure] at hp
      have hp0 : (semOf st.sems m0).inProgress = false := by
        cases hb : (semOf st.sems m0).inProgress
        · rfl
        · exact absurd hb hp
      obtain ⟨hz, hq⟩ := (hi m0).2 hp0
      refine ⟨?_, ?_, ?_⟩
      · intro m
        by_cases hm : m = m0
        · subst hm
          refine ⟨?_, ?_⟩
          · show ((c, m) :: st.inFlight).countP
                (fun p => decide (p.2 = m)) ≤ 1
            rw [List.countP_cons]
            have : countFlight st m = 0 := hz
            rw [countFlight] at this
            simp [this]
          · intro hf
            rw [show semOf (setA (ensureSem st.sems m) m
                  ⟨true, (semOf (ensureSem st.sems m) m).queue⟩) m =
                ⟨true, (semOf (ensureSem st.sems m) m).queue⟩ from
              semOf_setA_self _ _ _] at hf
            simp at hf
        · have hsem : semOf (setA (ensureSem st.sems m0) m0
              ⟨true, (semOf (ensureSem st.sems m0) m0).queue⟩) m =
              semOf st.sems m := by
            rw [semOf_setA_ne _ _ _ _ hm, semOf_ensure]
          have hcount : ((c, m0) :: st.inFlight).countP
              (fun p => decide (p.2 = m)) =
              st.inFlight.countP (fun p => decide (p.2 = m)) := by
            rw [List.countP_cons]
            simp [Ne.symm hm]
          refine ⟨?_, ?_⟩
          · show ((c, m0) :: st.inFlight).countP
                (fun p => decide (p.2 = m)) ≤ 1
            rw [hcount]
            exact (hi m).1
          · intro hf
            rw [show semOf ((⟨setA (ensureSem st.sems m0) m0
                  ⟨true, (semOf (ensureSem st.sems m0) m0).queue⟩,
                  (c, m0) :: st.inFlight⟩ : ApiState).sems) m =
                semOf st.sems m from hsem] at hf
            obtain ⟨hz2, hq2⟩ := (hi m).2 hf
            refine ⟨?_, ?_⟩
            · show ((c, m0) :: st.inFlight).countP
                  (fun p => decide (p.2 = m)) = 0
              rw [hcount]
              exact hz2
            · show (semOf (setA (ensureSem st.sems m0) m0
                  ⟨true, (semOf (ensureSem st.sems m0) m0).queue⟩) m).queue = []
              rw [hsem]
              exact hq2
      · intro m
        show resumesOf [] m ++ (semOf (setA (ensureSem st.sems m0) m0
            ⟨true, (semOf (ensureSem st.sems m0) m0).queue⟩) m).queue =
          (semOf st.sems m).queue ++ enqsOf [SemEv.start c m0] m
        have henq : enqsOf [SemEv.start c m0] m = [] := rfl
        rw [henq]
        by_cases hm : m = m0
        · subst hm
          rw [semOf_setA_self, semOf_ensure]
          simp [resumesOf]
        · rw [semOf_setA_ne _ _ _ _ hm, semOf_ensure]
          simp [resumesOf]
      · intro m hs
        show (lookupA st.sems m).isSome = true ∨ (SemEv.start c m0).model = m
        rcases isSome_lookupA_setA _ _ _ _ hs with h1 | h1
        · exact Or.inr h1.symm
        · rcases isSome_lookupA_ensure _ _ _ h1 with h2 | h2
          · exact Or.inr h2.symm
          · exact Or.inl h2
  | enqueue c m0 =>
    simp only [stepSem] at h
    by_cases hp : (semOf (ensureSem st.sems m0) m0).inProgress = true
    · rw [if_pos hp] at h
      simp only [Option.some.injEq, Prod.mk.injEq] at h
      obtain ⟨h1, h2⟩ := h
      subst h1
      subst h2
      rw [semOf_ensure] at hp
      refine ⟨?_, ?_, ?_⟩
      · intro m
        by_cases hm : m = m0
        · subst hm
          refine ⟨(hi m).1, ?_⟩
          · intro hf
            rw [show semOf (setA (ensureSem st.sems m) m
                  ⟨true, (semOf (ensureSem st.sems m) m).queue ++ [c]⟩) m =
                ⟨true, (semOf (ensureSem st.sems m) m).queue ++ [c]⟩ from
              semOf_setA_self _ _ _] at hf
            simp at hf
        · have hsem : semOf (setA (ensureSem st.sems m0) m0
              ⟨true, (semOf (ensureSem st.sems m0) m0).queue ++ [c]⟩) m =
              semOf st.sems m := by
            rw [semOf_setA_ne _ _ _ _ hm, semOf_ensure]
          refine ⟨(hi m).1, ?_⟩
          intro hf
          rw [show semOf ((⟨setA (ensureSem st.sems m0) m0
                ⟨true, (semOf (ensureSem st.sems m0) m0).queue ++ [c]⟩,
                st.inFlight⟩ : ApiState).sems) m =
              semOf st.sems m from hsem] at hf
          obtain ⟨hz2, hq2⟩ := (hi m).2 hf
          exact ⟨hz2, by rw [show semOf (setA (ensureSem st.sems m0) m0
            ⟨true, (semOf (ensureSem st.sems m0) m0).queue ++ [c]⟩) m =
              semOf st.sems m from hsem]; exact hq2⟩
      · intro m
        show resumesOf [] m ++ (semOf (setA (ensureSem st.sems m0) m0
            ⟨true, (semOf (ensureSem st.sems m0) m0).queue ++ [c]⟩) m).queue =
          (semOf st.sems m).queue ++ enqsOf [SemEv.enqueue c m0] m
        by_cases hm : m = m0
        · subst hm
          rw [semOf_setA_self, semOf_ensure]
          have henq : enqsOf [SemEv.enqueue c m] m = [c] := by
            simp [enqsOf]
          rw [henq]
          simp [resumesOf]
        · rw [semOf_setA_ne _ _ _ _ hm, semOf_ensure]
          have henq : enqsOf [SemEv.enqueue c m0] m = [] := by
            simp [enqsOf, Ne.symm hm]
          rw [henq]
          simp [resumesOf]
      · intro m hs
        rcases isSome_lookupA_setA _ _ _ _ hs with h1 | h1
        · exact Or.inr h1.symm
        · rcases isSome_lookupA_ensure _ _ _ h1 with h2 | h2
          · exact Or.inr h2.symm
          · exact Or.inl h2
    · rw [if_neg hp] at h
      exact absurd h (by simp)
  | finish c m0 =>
    simp only [stepSem] at h
    by_cases hmem : (c, m0) ∈ st.inFlight
    · rw [if_pos hmem] at h
      have hcm : countFlight st m0 = 1 := by
        refine le_antisymm (hi m0).1 ?_
        rw [countFlight]
        exact List.countP_pos_iff.mpr ⟨(c, m0), hmem, by simp⟩
      have hcm' : st.inFlight.countP (fun p => decide (p.2 = m0)) = 1 := hcm
      have hrm : (removeFlight st.inFlight c m0).countP
          (fun p => decide (p.2 = m0)) = 0 := by
        have := countP_removeFlight_self st.inFlight c m0 hmem
        omega
      cases hqv : (semOf (ensureSem st.sems m0) m0).queue with
      | nil =>
        simp only [hqv] at h
        simp only [Option.some.injEq, Prod.mk.injEq] at h
        obtain ⟨h1, h2⟩ := h
        subst h1
        subst h2
        rw [semOf_ensure] at hqv
        refine ⟨?_, ?_, ?_⟩
        · intro m
          by_cases hm : m = m0
          · subst hm
            refine ⟨?_, ?_⟩
            · show (removeFlight st.inFlight c m).countP
                  (fun p => decide (p.2 = m)) ≤ 1
              rw [hrm]
              exact Nat.zero_le 1
            · intro _
              refine ⟨hrm, ?_⟩
              rw [show semOf (setA (ensureSem st.sems m) m ⟨false, []⟩) m =
                ⟨false, []⟩ from semOf_setA_self _ _ _]
          · have hsem : semOf (setA (ensureSem st.sems m0) m0
                ⟨false, []⟩) m = semOf st.sems m := by
              rw [semOf_setA_ne _ _ _ _ hm, semOf_ensure]
            have hcnt : (removeFlight st.inFlight c m0).countP
                (fun p => decide (p.2 = m)) =
                st.inFlight.countP (fun p => decide (p.2 = m)) :=
              countP_removeFlight_ne st.inFlight c m0 m hm
            refine ⟨?_, ?_⟩
            · show (removeFlight st.inFlight c m0).countP
                  (fun p => decide (p.2 = m)) ≤ 1
              rw [hcnt]
              exact (hi m).1
            · intro hf
              rw [show semOf ((⟨setA (ensureSem st.sems m0) m0 ⟨false, []⟩,
                    removeFlight st.inFlight c m0⟩ : ApiState).sems) m =
                  semOf st.sems m from hsem] at hf
              obtain ⟨hz2, hq2⟩ := (hi m).2 hf
              refine ⟨?_, ?_⟩
              · show (removeFlight st.inFlight c m0).countP
                    (fun p => decide (p.2 = m)) = 0
                rw [hcnt]
                exact hz2
              · rw [show semOf (setA (ensureSem st.sems m0) m0 ⟨false, []⟩) m =
                  semOf st.sems m from hsem]
                exact hq2
        · intro m
          show resumesOf [] m ++
              (semOf (setA (ensureSem st.sems m0) m0 ⟨false, []⟩) m).queue =
            (semOf st.sems m).queue ++ enqsOf [SemEv.finish c m0] m
          have henq : enqsOf [SemEv.finish c m0] m = [] := rfl
          rw [henq]
          by_cases hm : m = m0
          · subst hm
            rw [semOf_setA_self, hqv]
            simp [resumesOf]
          · rw [semOf_setA_ne _ _ _ _ hm, semOf_ensure]
            simp [resumesOf]
        · intro m hs
          rcases isSome_lookupA_setA _ _ _ _ hs with h1 | h1
          · exact Or.inr h1.symm
          · rcases isSome_lookupA_ensure _ _ _ h1 with h2 | h2
            · exact Or.inr h2.symm
            · exact Or.inl h2
      | cons hd tl =>
        simp only [hqv] at h
        simp only [Option.some.injEq, Prod.mk.injEq] at h
        obtain ⟨h1, h2⟩ := h
        subst h1
        subst h2
        rw [semOf_ensure] at hqv
        refine ⟨?_, ?_, ?_⟩
        · intro m
          by_cases hm : m = m0
          · subst hm
            refine ⟨?_, ?_⟩
            · show ((hd, m) :: removeFlight st.inFlight c m).countP
                  (fun p => decide (p.2 = m)) ≤ 1
              rw [List.countP_cons, hrm]
              simp
            · intro hf
              rw [show semOf (setA (ensureSem st.sems m) m ⟨true, tl⟩) m =
                ⟨true, tl⟩ from semOf_setA_self _ _ _] at hf
              simp at hf
          · have hsem : semOf (setA (ensureSem st.sems m0) m0
                ⟨true, tl⟩) m = semOf st.sems m := by
              rw [semOf_setA_ne _ _ _ _ hm, semOf_ensure]
            have hcnt : ((hd, m0) :: removeFlight st.inFlight c m0).countP
                (fun p => decide (p.2 = m)) =
                st.inFlight.countP (fun p => decide (p.2 = m)) := by
              rw [List.countP_cons]
              rw [countP_removeFlight_ne st.inFlight c m0 m hm]
              simp [Ne.symm hm]
            refine ⟨?_, ?_⟩
            · show ((hd, m0) :: removeFlight st.inFlight c m0).countP
                  (fun p => decide (p.2 = m)) ≤ 1
              rw [hcnt]
              exact (hi m).1
            · intro hf
              rw [show semOf ((⟨setA (ensureSem st.sems m0) m0 ⟨true, tl⟩,
                    (hd, m0) :: removeFlight st.inFlight c m0⟩ :
                    ApiState).sems) m = semOf st.sems m from hsem] at hf
              obtain ⟨hz2, hq2⟩ := (hi m).2 hf
              refine ⟨?_, ?_⟩
              · show ((hd, m0) :: removeFlight st.inFlight c m0).countP
                    (fun p => decide (p.2 = m)) = 0
                rw [hcnt]
                exact hz2
              · rw [show semOf (setA (ensureSem st.sems m0) m0 ⟨true, tl⟩) m =
                  semOf st.sems m from hsem]
                exact hq2
        · intro m
          show resumesOf [(hd, m0)] m ++
              (semOf (setA (ensureSem st.sems m0) m0 ⟨true, tl⟩) m).queue =
            (semOf st.sems m).queue ++ enqsOf [SemEv.finish c m0] m
          have henq : enqsOf [SemEv.finish c m0] m = [] := rfl
          rw [henq]
          by_cases hm : m = m0
          · subst hm
            rw [semOf_setA_self, hqv]
            simp [resumesOf]
          · rw [semOf_setA_ne _ _ _ _ hm, semOf_ensure]
            simp [resumesOf, Ne.symm hm]
        · intro m hs
          rcases isSome_lookupA_setA _ _ _ _ hs with h1 | h1
          · exact Or.inr h1.symm
          · rcases isSome_lookupA_ensure _ _ _ h1 with h2 | h2
            · exact Or.inr h2.symm
            · exact Or.inl h2
    · rw [if_neg hmem] at h
      exact absurd h (by simp)

/-- Trace-level specification: running any event sequence from an invariant
state yields an invariant state, and the per-model resumption log, waiter
queue and enqueue sequence stay in the FIFO relation; semaphore entries only
appear for models that occur in the trace. -/
theorem runSem_spec (evs : List SemEv) :
    ∀ st log st' log', runSem st log evs = some (st', log') → InvSem st →
      InvSem st' ∧
      (∀ m, resumesOf log' m ++ (semOf st'.sems m).queue =
        (resumesOf log m ++ (semOf st.sems m).queue) ++ enqsOf evs m) ∧
      (∀ m, (lookupA st'.sems m).isSome = true →
        (lookupA st.sems m).isSome = true ∨ ∃ ev ∈ evs, SemEv.model ev = m) := by
  induction evs with
  | nil =>
    intro st log st' log' h hi
    simp only [runSem, Option.some.injEq, Prod.mk.injEq] at h
    obtain ⟨h1, h2⟩ := h
    subst h1
    subst h2
    refine ⟨hi, ?_, ?_⟩
    · intro m
      simp [enqsOf]
    · intro m hs
      exact Or.inl hs
  | cons ev evs ih =>
    intro st log st' log' h hi
    simp only [runSem] at h
    cases hs : stepSem st ev with
    | none =>
      simp only [hs] at h
      exact Option.noConfusion h
    | some p =>
      obtain ⟨st1, r⟩ := p
      simp only [hs] at h
      obtain ⟨hI1, hF1, hE1⟩ := stepSem_spec st ev st1 r hs hi
      obtain ⟨hI, hF, hE⟩ := ih st1 (log ++ r.toList) st' log' h hI1
      refine ⟨hI, ?_, ?_⟩
      · intro m
        have h1 := hF m
        have h2 := hF1 m
        rw [resumesOf_append] at h1
        rw [enqsOf_cons]
        calc resumesOf log' m ++ (semOf st'.sems m).queue
            = (resumesOf log m ++ resumesOf r.toList m ++
                (semOf st1.sems m).queue) ++ enqsOf evs m := h1
          _ = (resumesOf log m ++ (resumesOf r.toList m ++
                (semOf st1.sems m).queue)) ++ enqsOf evs m := by
              rw [List.append_assoc (resumesOf log m)]
          _ = (resumesOf log m ++ ((semOf st.sems m).queue ++
                enqsOf [ev] m)) ++ enqsOf evs m := by rw [h2]
          _ = (resumesOf log m ++ (semOf st.sems m).queue) ++
                (enqsOf [ev] m ++ enqsOf evs m) := by
              simp [List.append_assoc]
      · intro m hsm
        rcases hE m hsm with h1 | h1
        · rcases hE1 m h1 with h2 | h2
          · exact Or.inl h2
          · exact Or.inr ⟨ev, List.mem_cons_self _ _, h2⟩
        · obtain ⟨e, he, hm⟩ := h1
          exact Or.inr ⟨e, List.mem_cons_of_mem _ he, hm⟩

/-- Claim C2: per-model semaphore discipline of the generation client
(api.ts lines 202-240).  In every state reachable from the initial empty
state: (mutual exclusion) at most one network request is in flight per model
id; (FIFO) the sequence of resumed waiters for a model followed by its
current queue equals the sequence of enqueued waiters, so waiters resume one
at a time in enqueue order; (lazy creation) a semaphore entry exists only
for model ids that some call has used, starting from no entries at all.
Separately, calls for two different model ids can be in flight at the same
time (witnessed by a concrete two-model trace). -/
theorem c2_per_model_semaphore :
    (∀ evs st log, runSem initApi [] evs = some (st, log) →
      (∀ m, countFlight st m ≤ 1) ∧
      (∀ m, resumesOf log m ++ (semOf st.sems m).queue = enqsOf evs m) ∧
      (∀ m, (lookupA st.sems m).isSome = true →
        ∃ ev ∈ evs, SemEv.model ev = m)) ∧
    (runSem initApi [] [SemEv.start 1 "a", SemEv.start 2 "b"] =
      some (⟨[("a", ⟨true, []⟩), ("b", ⟨true, []⟩)],
        [(2, "b"), (1, "a")]⟩, []) ∧
      ((1, "a") ∈ [((2 : Nat), "b"), (1, "a")] ∧
       (2, "b") ∈ [((2 : Nat), "b"), (1, "a")] ∧ ("a" : String) ≠ "b")) := by
  constructor
  · intro evs st log h
    have hi : InvSem initApi := by
      intro m
      refine ⟨?_, ?_⟩
      · show ([] : List (Nat × String)).countP (fun p => decide (p.2 = m)) ≤ 1
        simp
      · intro _
        exact ⟨rfl, rfl⟩
    obtain ⟨hI, hF, hE⟩ := runSem_spec evs initApi [] st log h hi
    refine ⟨fun m => (hI m).1, ?_, ?_⟩
    · intro m
      have := hF m
      simpa [resumesOf, semOf, initApi, lookupA] using this
    · intro m hsm
      rcases hE m hsm with h1 | h1
      · exact absurd h1 (by simp [initApi, lookupA])
      · exact h1
  · exact ⟨by decide, by decide, by decide, by decide⟩

/-- Witness for C2 at a concrete two-model trace. -/
theorem c2_per_model_semaphore_witness :
    countFlight ⟨[("a", ⟨true, []⟩), ("b", ⟨true, []⟩)],
      [(2, "b"), (1, "a")]⟩ "a" ≤ 1 :=
  (c2_per_model_semaphore.1 [SemEv.start 1 "a", SemEv.start 2 "b"]
    ⟨[("a", ⟨true, []⟩), ("b", ⟨true, []⟩)], [(2, "b"), (1, "a")]⟩ []
    (by decide)).1 "a"

end PollinationsFamily
